import Mathlib

/-!
Verification of the email-segmentation and draft-reconstruction core of the
`llm-to-outlook` repository (`src/settings/settings.js`, `src/lib/llm-providers.js`,
`src/lib/storage.js`, and the prompt-manager module).

Strings are modelled as `List Char`.  The JavaScript regular expressions used by
the source are specialised, pattern by pattern, into executable scanners over
`List Char`; case-insensitive matching (`/i`) is modelled by ASCII case folding,
which is exact for every pattern literal appearing in the source.  The DOM is
modelled as a rose tree (`Node`); `querySelector` probes become pre-order
searches over that tree.
-/

namespace LlmToOutlook

abbrev Str := List Char

/-- ASCII lower-casing, as used by the `/i` regex flag on the source's
ASCII pattern literals. -/
def lowerC (c : Char) : Char :=
  if 'A' ≤ c && c ≤ 'Z' then Char.ofNat (c.toNat + 32) else c

/-- Case-insensitive character comparison (ASCII folding). -/
def ciEq (a b : Char) : Bool := lowerC a == lowerC b

/-- JavaScript `\s` / `String.prototype.trim` whitespace (the subset of the
Unicode class that can occur in the inputs considered here). -/
def isJsWs (c : Char) : Bool :=
  c == ' ' || c == '\t' || c == '\n' || c == '\r' || c == '\x0b' ||
  c == '\x0c' || c == '\u00A0' || c == '\uFEFF'

/-- JavaScript `String.prototype.trim`. -/
def trimJs (s : Str) : Str :=
  ((s.dropWhile isJsWs).reverse.dropWhile isJsWs).reverse

/-- Exact prefix test (JavaScript `startsWith`). -/
def isPrefExact : Str → Str → Bool
  | [], _ => true
  | _ :: _, [] => false
  | a :: as, b :: bs => a == b && isPrefExact as bs

/-- Exact substring test (JavaScript `String.prototype.includes`). -/
def occursExact (pat : Str) : Str → Bool
  | [] => isPrefExact pat []
  | c :: cs => isPrefExact pat (c :: cs) || occursExact pat cs

/-- Number of positions at which `pat` occurs. -/
def countSub (pat : Str) : Str → Nat
  | [] => 0
  | c :: cs => (if isPrefExact pat (c :: cs) then 1 else 0) + countSub pat cs

/-- Exact suffix test (JavaScript `endsWith`). -/
def endsWithL (s pat : Str) : Bool := isPrefExact pat.reverse s.reverse

/-- Case-insensitive prefix match of `pat` against a string. -/
def matchesCI : Str → Str → Bool
  | [], _ => true
  | _ :: _, [] => false
  | p :: ps, c :: cs => ciEq p c && matchesCI ps cs

/-- Case-insensitive substring test. -/
def occursCI (pat : Str) : Str → Bool
  | [] => matchesCI pat []
  | c :: cs => matchesCI pat (c :: cs) || occursCI pat cs

/-- Case-insensitive suffix test. -/
def endsWithCI (s pat : Str) : Bool := matchesCI pat.reverse s.reverse

/-- Index of the leftmost position whose suffix satisfies `p`
(the position at which a JavaScript regex match begins). -/
def findIdxWhere (p : Str → Bool) : Str → Option Nat
  | [] => none
  | c :: cs => if p (c :: cs) then some 0 else (findIdxWhere p cs).map (· + 1)

/-- Split on `'\n'` (JavaScript `split('\n')`; `""` splits to `[""]`). -/
def splitNl : Str → List Str
  | [] => [[]]
  | c :: rest =>
    if c == '\n' then [] :: splitNl rest
    else
      match splitNl rest with
      | l :: ls => (c :: l) :: ls
      | [] => [[c]]

/-- Join lines with `'\n'` (JavaScript `join('\n')`). -/
def joinNl : List Str → Str
  | [] => []
  | [l] => l
  | l :: ls => l ++ '\n' :: joinNl ls

/-- Concatenation of a list of strings (JavaScript `join('')`). -/
def joinAll : List Str → Str
  | [] => []
  | l :: ls => l ++ joinAll ls

/-!  ## Signature Detector — `stripSignature` (settings.js lines 613-676)  -/

/-- The closing-phrase patterns of Strategy 2, in source order; each stands for
the regex `\n<phrase>[\s\S]*` with the `/i` flag (the leading `\n--\s*\n[\s\S]*`
separator pattern is handled separately by `matchDashSepAt`). -/
def sigPhrases : List Str :=
  ["Best regards,", "Kind regards,", "Regards,", "Sincerely,", "Thanks,",
   "Thank you,", "Cheers,", "Cordialement,", "Cdlt,",
   "Mit freundlichen Grüßen,", "MfG,", "Sent from my iPhone",
   "Sent from my Android", "Get Outlook for", "Envoyé de mon",
   "Verzonden vanaf"].map String.data

/-- Does `/\n--\s*\n/` match at the head of the given suffix? -/
def matchDashSepAt : Str → Bool
  | '\n' :: '-' :: '-' :: rest => (rest.takeWhile isJsWs).contains '\n'
  | _ => false

/-- Strategy 2: test each phrase pattern in order; on the first hit, cut the
text at the `\n` that precedes the phrase (the regex replaces the match, which
extends to the end of the string, by the empty string) and trim. -/
def stripSigPhrasesGo (s : Str) : List Str → Option Str
  | [] => none
  | ph :: rest =>
    match findIdxWhere (matchesCI ('\n' :: ph)) s with
    | some i => some (trimJs (s.take i))
    | none => stripSigPhrasesGo s rest

/-- Character class `[\d\s\-\(\).]` of the phone-number heuristic. -/
def phoneChar (c : Char) : Bool :=
  c.isDigit || isJsWs c || c == '-' || c == '(' || c == ')' || c == '.'

/-- Does a run of `n` consecutive characters satisfying `p` start here? -/
def startRun (p : Char → Bool) : Nat → Str → Bool
  | 0, _ => true
  | _ + 1, [] => false
  | n + 1, c :: cs => p c && startRun p n cs

/-- Does the string contain `n` consecutive characters satisfying `p`?
(`/\+?[\d\s\-\(\).]{8,20}/.test` holds iff an 8-run of the class exists.) -/
def hasRun (p : Char → Bool) (n : Nat) : Str → Bool
  | [] => startRun p n []
  | c :: cs => startRun p n (c :: cs) || hasRun p n cs

def isAsciiAlpha (c : Char) : Bool :=
  ('a' ≤ c && c ≤ 'z') || ('A' ≤ c && c ≤ 'Z')

/-- Local-part class `[a-z0-9._%+-]` (with `/i`). -/
def emailLocalChar (c : Char) : Bool :=
  isAsciiAlpha c || c.isDigit || c == '.' || c == '_' || c == '%' || c == '+' || c == '-'

/-- Domain class `[a-z0-9.-]` (with `/i`). -/
def emailDomChar (c : Char) : Bool :=
  isAsciiAlpha c || c.isDigit || c == '.' || c == '-'

def twoAlpha : Str → Bool
  | a :: b :: _ => isAsciiAlpha a && isAsciiAlpha b
  | _ => false

/-- After an `'@'`: does `[a-z0-9.-]+\.[a-z]{2,}` match (a nonempty domain run,
then a dot whose suffix starts with at least two letters)? -/
def emailDomOkGo : Nat → Str → Bool
  | cnt, '.' :: rest => (decide (1 ≤ cnt) && twoAlpha rest) || emailDomOkGo (cnt + 1) rest
  | cnt, c :: rest => emailDomChar c && emailDomOkGo (cnt + 1) rest
  | _, [] => false

/-- `/[a-z0-9._%+-]+@[a-z0-9.-]+\.[a-z]{2,}/i.test` on a single line. -/
def hasEmailGo : Option Char → Str → Bool
  | prev, '@' :: rest =>
    ((match prev with | some c => emailLocalChar c | none => false) &&
      emailDomOkGo 0 rest) || hasEmailGo (some '@') rest
  | _, c :: rest => hasEmailGo (some c) rest
  | _, [] => false

def hasEmailLine (l : Str) : Bool := hasEmailGo none l

/-- `/www\.|http/i.test`. -/
def hasUrlLine (l : Str) : Bool :=
  occursCI ("www.".data) l || occursCI ("http".data) l

/-- One line of the Strategy-3 structural fallback: phone, e-mail or URL token. -/
def sigLineTest (l : Str) : Bool :=
  hasRun phoneChar 8 l || hasEmailLine l || hasUrlLine l

/-- Backwards scan of Strategy 3: offsets `o` enumerate `i = n-1-o` from the
last line downward; the first line matching `sigLineTest` (with the always-true
`i > n-10` guard of the source) gives the cut index. -/
def scanBack (lines : List Str) (n : Nat) : List Nat → Option Nat
  | [] => none
  | o :: os =>
    let i := n - 1 - o
    if sigLineTest (trimJs (lines.getD i [])) &&
        decide ((i : Int) > (n : Int) - 10) then some i
    else scanBack lines n os

/-- Strategy 3 of `stripSignature` (settings.js lines 653-673). -/
def stripSigPhase3 (result : Str) : Str :=
  let lines := splitNl result
  let n := lines.length
  if 3 < n then
    match scanBack lines n (List.range (min 8 n)) with
    | some i => trimJs (joinNl (lines.take i))
    | none => result
  else result

/-- Strategies 2 and 3 of `stripSignature` (the part reached when the template
comparison does not fire). -/
def stripSigPhase2 (result : Str) : Str :=
  match findIdxWhere matchDashSepAt result with
  | some i => trimJs (result.take i)
  | none =>
    match stripSigPhrasesGo result sigPhrases with
    | some r => r
    | none => stripSigPhase3 result

/-- `stripSignature(text, template)` (settings.js lines 613-676).  `none`
models a call without the `template` argument. -/
def stripSignature (text : Str) (template : Option Str) : Str :=
  let result := trimJs text
  match template with
  | some t =>
    if 5 < t.length ∧ endsWithL result t = true then
      trimJs (result.take (result.length - t.length))
    else stripSigPhase2 result
  | none => stripSigPhase2 result

/-!  ## Thread Text Cleaner — `cleanThreadContent` (settings.js lines 684-744)  -/

/-- Drop trailing JavaScript whitespace. -/
def dropTrailWs (s : Str) : Str := (s.reverse.dropWhile isJsWs).reverse

/-- The label shapes of the range-collapse regexes: a plain literal (e.g.
`From:`) or a literal followed by `\s*` and a colon (e.g. `De\s*:`). -/
inductive LabelPat where
  | lit : Str → LabelPat
  | wsColon : Str → LabelPat

/-- Length of the label match at the head of `s`, if any (case-insensitive). -/
def matchLabelAt : LabelPat → Str → Option Nat
  | .lit l, s => if matchesCI l s then some l.length else none
  | .wsColon l, s =>
    if matchesCI l s then
      let rest := s.drop l.length
      let wsn := (rest.takeWhile isJsWs).length
      match rest.drop wsn with
      | ':' :: _ => some (l.length + wsn + 1)
      | _ => none
    else none

/-- Global replace of `/<label>[\s\S]*?(?=<stop>)/gi` by `repl`: at each match
of the label, the lazy span extends to the earliest case-insensitive
occurrence of `stop` at or after the label's end; scanning resumes at the
match end.  Fuel is the string length (every step consumes at least one
character). -/
def collapseGo (lp : LabelPat) (stop repl : Str) : Nat → Str → Str
  | 0, s => s
  | _, [] => []
  | f + 1, c :: cs =>
    match matchLabelAt lp (c :: cs) with
    | some n =>
      match findIdxWhere (matchesCI stop) ((c :: cs).drop n) with
      | some off => repl ++ collapseGo lp stop repl f ((c :: cs).drop (n + off))
      | none => c :: collapseGo lp stop repl f cs
    | none => c :: collapseGo lp stop repl f cs

def collapseRange (lp : LabelPat) (stop repl : Str) (s : Str) : Str :=
  collapseGo lp stop repl s.length s

/-- The nine `rangePatterns` of `cleanThreadContent`, in source order. -/
def rangePatterns : List (LabelPat × Str × Str) :=
  [(.lit ("From:".data), ("Sent:".data), ("From:\n".data)),
   (.lit ("Sent:".data), ("To:".data), ("Sent:\n".data)),
   (.lit ("To:".data), ("Subject:".data), ("To:\n".data)),
   (.wsColon ("De".data), ("Envoyé".data), ("De:\n".data)),
   (.wsColon ("Envoyé".data), ("À".data), ("Envoyé:\n".data)),
   (.wsColon ("À".data), ("Objet".data), ("À:\n".data)),
   (.lit ("Von:".data), ("Gesendet".data), ("Von:\n".data)),
   (.lit ("Gesendet:".data), ("An".data), ("Gesendet:\n".data)),
   (.lit ("An:".data), ("Betreff".data), ("An:\n".data))]

/-- Replace every line matching `pred` by the empty line
(a `/^...$/gm` pattern replaced by `''` leaves its newlines in place). -/
def removeLines (pred : Str → Bool) (s : Str) : Str :=
  joinNl ((splitNl s).map fun l => if pred l then [] else l)

/-- `/^On\s+.*\s+wrote:\s*$/i` on one line: after stripping trailing
whitespace the line ends (case-insensitively) with `wrote:`, starts with `On`,
and the span between starts and ends with a whitespace character. -/
def isOnWroteLine (l : Str) : Bool :=
  let r := dropTrailWs l
  matchesCI ("On".data) l && endsWithCI r ("wrote:".data) &&
    (let b := (r.drop 2).take (r.length - 8)
     decide (2 ≤ b.length) &&
       (match b.head? with | some w => isJsWs w | none => false) &&
       (match b.getLast? with | some w => isJsWs w | none => false))

/-- `/^<hd>\s+.*\s+<tail>\s*:\s*$/i` on one line (the `Le … a écrit :` and
`Am … schrieb:` patterns). -/
def isTailColonPhrase (l hd tail : Str) : Bool :=
  let r1 := dropTrailWs l
  match r1.getLast? with
  | some ':' =>
    let r2 := dropTrailWs r1.dropLast
    matchesCI hd l && endsWithCI r2 tail &&
      (let b := (r2.drop hd.length).take (r2.length - (hd.length + tail.length))
       decide (2 ≤ b.length) &&
         (match b.head? with | some w => isJsWs w | none => false) &&
         (match b.getLast? with | some w => isJsWs w | none => false))
  | _ => false

/-- `/^[-_]{3,}.*$/` on one line. -/
def isSepLine (l : Str) : Bool :=
  decide (3 ≤ l.length) && (l.take 3).all (fun c => c == '-' || c == '_')

/-- Decomposability of the maximal domain run after `'@'`: some dot at index
at least 1 whose entire remaining suffix is two or more ASCII letters
(`[a-zA-Z0-9.-]+\.[a-zA-Z]{2,}` followed directly by `'>'`). -/
def domSplitOk : Nat → Str → Bool
  | cnt, '.' :: q =>
    (decide (1 ≤ cnt) && decide (2 ≤ q.length) && q.all isAsciiAlpha) ||
      domSplitOk (cnt + 1) q
  | cnt, _ :: q => domSplitOk (cnt + 1) q
  | _, [] => false

/-- Length of a `/<[a-zA-Z0-9._%+-]+@[a-zA-Z0-9.-]+\.[a-zA-Z]{2,}>/` match
starting at the head of `s`, if any. -/
def tryEmailBracket (s : Str) : Option Nat :=
  match s with
  | '<' :: rest =>
    let loc := rest.takeWhile emailLocalChar
    if loc.isEmpty then none
    else
      match rest.drop loc.length with
      | '@' :: rest2 =>
        let dom := rest2.takeWhile emailDomChar
        if dom.isEmpty then none
        else
          match rest2.drop dom.length with
          | '>' :: _ =>
            if domSplitOk 0 dom then some (loc.length + dom.length + 3) else none
          | _ => none
      | _ => none
  | _ => none

def removeEmailBracketsGo : Nat → Str → Str
  | 0, s => s
  | _, [] => []
  | f + 1, c :: cs =>
    match tryEmailBracket (c :: cs) with
    | some n => removeEmailBracketsGo f ((c :: cs).drop n)
    | none => c :: removeEmailBracketsGo f cs

def removeEmailBrackets (s : Str) : Str := removeEmailBracketsGo s.length s

/-- `replace(/\n{3,}/g, '\n\n')`: newline runs of three or more collapse to
exactly two. -/
def collapseNlGo : Nat → Str → Str
  | 0, s => s
  | _, [] => []
  | f + 1, c :: cs =>
    if c == '\n' then
      let k := (cs.takeWhile (· == '\n')).length
      (if 2 ≤ k then ['\n', '\n'] else '\n' :: List.replicate k '\n') ++
        collapseNlGo f (cs.drop k)
    else c :: collapseNlGo f cs

def collapseNl (s : Str) : Str := collapseNlGo s.length s

/-- The `headerPatterns` passes of `cleanThreadContent`, in source order. -/
def cleanHeaderLines (s : Str) : Str :=
  let s1 := removeLines (fun l => isPrefExact ("Cc:".data) l) s
  let s2 := removeLines (fun l => isPrefExact ("Bcc:".data) l) s1
  let s3 := removeLines (fun l => isPrefExact ("Date:".data) l) s2
  let s4 := removeLines (fun l => isPrefExact ("Importance:".data) l) s3
  let s5 := removeEmailBrackets s4
  let s6 := removeLines isOnWroteLine s5
  let s7 := removeLines (fun l => isTailColonPhrase l ("Le".data) ("a écrit".data)) s6
  let s8 := removeLines (fun l => isTailColonPhrase l ("Am".data) ("schrieb".data)) s7
  let s9 := removeLines isSepLine s8
  let s10 := removeLines (fun l => matchesCI ("Original Message".data) l) s9
  let s11 := removeLines (fun l => matchesCI ("Message d\x27origine".data) l) s10
  removeLines (fun l => matchesCI ("Forwarded message".data) l) s11

/-- `cleanThreadContent(text)` (settings.js lines 684-744). -/
def cleanThreadContent (text : Str) : Str :=
  if text.isEmpty then []
  else
    let r1 := rangePatterns.foldl (fun s p => collapseRange p.1 p.2.1 p.2.2 s) text
    let r2 := cleanHeaderLines r1
    let r3 := collapseNl r2
    let r4 := stripSignature r3 none
    trimJs r4


/-!  ## DOM model, Thread Boundary Locator and Region Segmenter
(`parseEmailHtml`, settings.js lines 526-605;
`extractPreservedContent`, lines 1070-1238)

A compose document is the list of child nodes of the wrapper `div` the source
pours the raw HTML into.  `querySelector(sel)` returns the first matching
element in pre-order, and the source then walks up from the found element to
its ancestor that is a direct child of the wrapper; both steps together
determine exactly the first root child whose subtree contains a match, so the
locator functions below return that root index.  -/

inductive Node where
  | text : Str → Node
  | elem : (tag : Str) → (idAttr : Str) → (classes : List Str) →
      (attrs : List (Str × Str)) → (children : List Node) → Node

/-- The CSS selector shapes used by the source's marker lists. -/
inductive Selector where
  | byId : Str → Selector
  | byClass : Str → Selector
  | tagAttrVal : Str → Str → Str → Selector
  | byTag : Str → Selector
  | attrExists : Str → Selector

def matchesSel (sel : Selector) (n : Node) : Bool :=
  match n, sel with
  | .text _, _ => false
  | .elem _ idA _ _ _, .byId s => idA == s
  | .elem _ _ cls _ _, .byClass s => cls.contains s
  | .elem tag _ _ attrs _, .tagAttrVal t a v => tag == t && attrs.contains (a, v)
  | .elem tag _ _ _ _, .byTag t => tag == t
  | .elem _ _ _ attrs _, .attrExists a => attrs.any (fun p => p.1 == a)

mutual
/-- Flattened text of a node (DOM `textContent`). -/
def textContent : Node → Str
  | .text s => s
  | .elem _ _ _ _ ch => textContentList ch

def textContentList : List Node → Str
  | [] => []
  | n :: ns => textContent n ++ textContentList ns
end

mutual
/-- Does any node of the subtree satisfy `p`? -/
def subtreeHasP (p : Node → Bool) : Node → Bool
  | .text s => p (.text s)
  | .elem t i c a ch => p (.elem t i c a ch) || listHasP p ch

def listHasP (p : Node → Bool) : List Node → Bool
  | [] => false
  | n :: ns => subtreeHasP p n || listHasP p ns
end

/-- Index of the first root child whose subtree contains a node satisfying
`p` — the root-level ancestor of the first pre-order match. -/
def findFirstIdxP (p : Node → Bool) : List Node → Option Nat
  | [] => none
  | n :: ns =>
    if subtreeHasP p n then some 0 else (findFirstIdxP p ns).map (· + 1)

/-- Index of the last root child whose subtree contains a node satisfying
`p` — the root-level ancestor of the last pre-order match (the source's
backwards iteration over `querySelectorAll`). -/
def findLastIdxP (p : Node → Bool) : List Node → Option Nat
  | [] => none
  | n :: ns =>
    match findLastIdxP p ns with
    | some j => some (j + 1)
    | none => if subtreeHasP p n then some 0 else none

/-- Try each selector in order; for the first one matching anywhere, return
the root index of its first match. -/
def firstSelIdx (roots : List Node) : List Selector → Option Nat
  | [] => none
  | sel :: rest =>
    match findFirstIdxP (matchesSel sel) roots with
    | some i => some i
    | none => firstSelIdx roots rest

/-- The `threadMarkers` selector list (identical in `parseEmailHtml` and
`extractPreservedContent`). -/
def threadMarkers : List Selector :=
  [.byId ("divRplyFwdMsg".data),
   .byId ("x_divRplyFwdMsg".data),
   .byClass ("gmail_quote".data),
   .byId ("appendonsend".data),
   .tagAttrVal ("hr".data) ("tabindex".data) ("-1".data),
   .byClass ("ms-MessageBody".data),
   .byTag ("blockquote".data)]

/-- `/<label>.*<stop>/i` textual test: a label match somewhere, with a
case-insensitive `stop` occurrence later on the same line. -/
def labelThenSameLineCI (lp : LabelPat) (stop : Str) : Str → Bool
  | [] => false
  | c :: cs =>
    (match matchLabelAt lp (c :: cs) with
     | some n =>
       occursCI stop (((c :: cs).drop n).takeWhile fun d => d != '\n' && d != '\r')
     | none => false) ||
    labelThenSameLineCI lp stop cs

/-- The relaxed thread-start text patterns (`From:.*Sent:` and its French,
German and `Original Message` variants). -/
def isThreadStartText (t : Str) : Bool :=
  labelThenSameLineCI (.lit ("From:".data)) ("Sent:".data) t ||
  labelThenSameLineCI (.wsColon ("De".data)) ("Envoyé".data) t ||
  labelThenSameLineCI (.lit ("Von:".data)) ("Gesendet".data) t ||
  occursCI ("---------- Original Message ----------".data) t

def tagIs (ts : List Str) (n : Node) : Bool :=
  match n with
  | .text _ => false
  | .elem t _ _ _ _ => ts.contains t

/-- A `div`, `p` or `font` element whose text matches a thread-start pattern. -/
def fromSentNodeTest (n : Node) : Bool :=
  tagIs ["div".data, "p".data, "font".data] n && isThreadStartText (textContent n)

/-- Thread-boundary probe of `parseEmailHtml`: marker selectors, then the
`From:/Sent:` scan, then any `hr`. -/
def threadIdxParse (roots : List Node) : Option Nat :=
  match firstSelIdx roots threadMarkers with
  | some i => some i
  | none =>
    match findFirstIdxP fromSentNodeTest roots with
    | some i => some i
    | none => findFirstIdxP (matchesSel (.byTag ("hr".data))) roots

/-- Result of `parseEmailHtml`. -/
structure ParsedEmail where
  currentMessage : Str
  threadContent : Str
deriving DecidableEq

/-- `parseEmailHtml(html)` (settings.js lines 526-605): the root children
strictly before the thread element's root ancestor flatten to the current
message; that ancestor and all following siblings flatten to the thread. -/
def parseEmailHtml (roots : List Node) : ParsedEmail :=
  match threadIdxParse roots with
  | some i =>
    { currentMessage := trimJs (textContentList (roots.take i)),
      threadContent := trimJs (textContentList (roots.drop i)) }
  | none =>
    { currentMessage := trimJs (textContentList roots), threadContent := [] }

/-- Join with a single space (serialisation of a `class` list). -/
def joinSpace : List Str → Str
  | [] => []
  | [l] => l
  | l :: ls => l ++ ' ' :: joinSpace ls

def serializeId (idA : Str) : Str :=
  if idA.isEmpty then [] else " id=\"".data ++ idA ++ ['"']

def serializeClasses (cls : List Str) : Str :=
  if cls.isEmpty then [] else " class=\"".data ++ joinSpace cls ++ ['"']

def serializeAttrs (attrs : List (Str × Str)) : Str :=
  attrs.foldr (fun p acc => ' ' :: p.1 ++ '=' :: '"' :: p.2 ++ '"' :: acc) []

mutual
/-- Serialised markup of a node (`outerHTML` of the clone). -/
def serializeNode : Node → Str
  | .text s => s
  | .elem t idA cls attrs ch =>
    '<' :: t ++ serializeId idA ++ serializeClasses cls ++ serializeAttrs attrs ++
      '>' :: serializeList ch ++ '<' :: '/' :: t ++ ['>']

def serializeList : List Node → Str
  | [] => []
  | n :: ns => serializeNode n ++ serializeList ns
end

/-- The `signatureMarkers` selector list of `extractPreservedContent`
(settings.js lines 1146-1152). -/
def sigMarkers : List Selector :=
  [.byId ("Signature".data), .byClass ("Signature".data),
   .byId ("ms-outlook-mobile-signature".data),
   .attrExists ("data-signature".data)]

/-- The `signaturePhrases` of the fallback (lines 1182-1195), each standing
for `/^<phrase>/im`; the final `/^--\s*$/m` is `isDashOnlyLine`. -/
def sigStartPhrases : List Str :=
  ["Best regards", "Kind regards", "Regards", "Sincerely", "Thanks",
   "Thank you", "Cheers", "Cordialement", "Cdlt",
   "Mit freundlichen Grüßen", "MfG"].map String.data

def isDashOnlyLine : Str → Bool
  | '-' :: '-' :: rest => rest.all isJsWs
  | _ => false

/-- `/^…/im` phrase test over an element's flattened text: some line starts
(case-insensitively) with a closing phrase, or is a dash-only line. -/
def textHasSigPhrase (t : Str) : Bool :=
  (splitNl t).any fun l =>
    sigStartPhrases.any (fun ph => matchesCI ph l) || isDashOnlyLine l

/-- `div`/`p` element matched by the closing-phrase fallback. -/
def sigPhraseNodeTest (n : Node) : Bool :=
  tagIs ["div".data, "p".data] n && textHasSigPhrase (textContent n)

/-- `div`/`p`/`table` element whose trimmed text (longer than 5) is contained
in the session signature template. -/
def tmplSigNodeTest (t : Str) (n : Node) : Bool :=
  tagIs ["div".data, "p".data, "table".data] n &&
    (let et := trimJs (textContent n)
     decide (5 < et.length) && occursExact et t)

/-- Thread-boundary probe of `extractPreservedContent` (same markers and
`From:/Sent:` scan as `parseEmailHtml`, but no plain-`hr` fallback). -/
def threadIdxExtract (roots : List Node) : Option Nat :=
  match firstSelIdx roots threadMarkers with
  | some i => some i
  | none => findFirstIdxP fromSentNodeTest roots

/-- Signature probe of Step 2 of `extractPreservedContent`: explicit markers,
then (when a long-enough session template exists) the last block whose text is
contained in the template, then the closing-phrase fallback.  Returns the root
index of the block at which the signature capture starts. -/
def sigIdx (tmpl : Option Str) (roots : List Node) : Option Nat :=
  match firstSelIdx roots sigMarkers with
  | some j => some j
  | none =>
    match tmpl with
    | some t =>
      if 5 < t.length then
        match findLastIdxP (tmplSigNodeTest t) roots with
        | some j => some j
        | none => findFirstIdxP sigPhraseNodeTest roots
      else findFirstIdxP sigPhraseNodeTest roots
    | none => findFirstIdxP sigPhraseNodeTest roots

/-- The signature fragment: the signature block and all following siblings of
the working tree, serialised (empty when no signature is found). -/
def sigHtmlOf (tmpl : Option Str) (rem : List Node) : Str :=
  match sigIdx tmpl rem with
  | some j => serializeList (rem.drop j)
  | none => []

/-- `extractPreservedContent(html)` (settings.js lines 1070-1238): Step 1
captures the thread block and its following siblings (`roots.drop i`) and
removes them from the working tree (`roots.take i`); Step 2 searches the
remainder for the signature.  Returns `(signatureHtml, threadHtml)`.  The
session template parameter models the module-global `initialBodyTemplate`. -/
def extractPreservedContent (tmpl : Option Str) (roots : List Node) : Str × Str :=
  match threadIdxExtract roots with
  | some i => (sigHtmlOf tmpl (roots.take i), serializeList (roots.drop i))
  | none => (sigHtmlOf tmpl roots, [])

/-!  ## Session state and the capture cycle (`captureEmailBody`,
settings.js lines 485-519)  -/

structure SessionState where
  initialBodyTemplate : Option Str
  currentEmailBody : Str
  currentThreadContent : Str
deriving DecidableEq

/-- One successful tick of `captureEmailBody`: parse, capture the template
only when it is still `null`, strip the signature using the template, and
clean the thread content when the toggle is on. -/
def captureEmailBody (st : SessionState) (roots : List Node)
    (includeThread : Bool) : SessionState :=
  let parsed := parseEmailHtml roots
  let tmpl :=
    match st.initialBodyTemplate with
    | none => trimJs parsed.currentMessage
    | some t => t
  { initialBodyTemplate := some tmpl,
    currentEmailBody := stripSignature parsed.currentMessage (some tmpl),
    currentThreadContent :=
      if includeThread then cleanThreadContent parsed.threadContent else [] }

/-!  ## Draft Reconstructor — `addOutlookStyles` and `formatBodyForInsert`
(settings.js lines 1246-1374)  -/

/-- One pass of `String.replace(/pat/gi, repl)` for a literal pattern:
structural scan with a skip counter for the characters consumed by a match. -/
def replaceCIGo (pat repl : Str) : Nat → Str → Str
  | _, [] => []
  | n + 1, _ :: cs => replaceCIGo pat repl n cs
  | 0, c :: cs =>
    if matchesCI pat (c :: cs) then
      repl ++ replaceCIGo pat repl (pat.length - 1) cs
    else c :: replaceCIGo pat repl 0 cs

/-- Global case-insensitive replace of the literal `pat` by `repl`. -/
def replaceCI (pat repl s : Str) : Str := replaceCIGo pat repl 0 s

def pTagPat : Str := "<p>".data
def pTagRepl : Str := "<p style=\"margin-top: 0; margin-bottom: 15px;\">".data
def ulTagPat : Str := "<ul>".data
def ulTagRepl : Str := "<ul style=\"margin-bottom: 15px;\">".data
def olTagPat : Str := "<ol>".data
def olTagRepl : Str := "<ol style=\"margin-bottom: 15px;\">".data

/-- `addOutlookStyles(html)` (settings.js lines 1246-1257). -/
def addOutlookStyles (html : Str) : Str :=
  if html.isEmpty then html
  else replaceCI olTagPat olTagRepl
        (replaceCI ulTagPat ulTagRepl (replaceCI pTagPat pTagRepl html))

/-- Is there a `'>'` somewhere in the string? -/
def hasGt : Str → Bool
  | [] => false
  | c :: cs => c == '>' || hasGt cs

/-- `/<[a-z][\s\S]*>/i.test(body)`: a `'<'` immediately followed by an ASCII
letter, with a `'>'` anywhere later. -/
def hasHtmlTag : Str → Bool
  | c :: d :: rest => (c == '<' && isAsciiAlpha d && hasGt rest) || hasHtmlTag (d :: rest)
  | _ => false

/-- Characters the regex `.` does not match. -/
def isDotExcluded (c : Char) : Bool := c == '\n' || c == '\r'

/-- Closing scan for `/d d(.+?)d d/` (the `**`/`__` bold transforms): consume
inner characters (at least one, none newline) until a double delimiter. -/
def findBoldClose (d : Char) : Nat → Str → Str → Option (Str × Str)
  | 0, _, _ => none
  | _, _, [] => none
  | f + 1, accRev, c :: cs =>
    if c == d && cs.head? == some d && !accRev.isEmpty then
      some (accRev.reverse, cs.tail)
    else if isDotExcluded c then none
    else findBoldClose d f (c :: accRev) cs

/-- `replace(/dd(.+?)dd/g, opn + $1 + cls)` for delimiter `d` (`'*'`/`'_'`). -/
def boldScan (d : Char) (opn cls : Str) : Nat → Str → Str
  | 0, s => s
  | _, [] => []
  | f + 1, c :: cs =>
    if c == d && cs.head? == some d then
      match findBoldClose d (cs.length + 1) [] cs.tail with
      | some (inner, rest) => opn ++ inner ++ cls ++ boldScan d opn cls f rest
      | none => c :: boldScan d opn cls f cs
    else c :: boldScan d opn cls f cs

/-- Closing scan for the lookaround italic patterns: a closing delimiter not
preceded and not followed by the delimiter, after at least one inner
character. -/
def findItalClose (d : Char) : Nat → Str → Str → Option (Str × Str)
  | 0, _, _ => none
  | _, _, [] => none
  | f + 1, accRev, c :: cs =>
    if c == d && accRev.head? != some d && cs.head? != some d && !accRev.isEmpty then
      some (accRev.reverse, cs)
    else if isDotExcluded c then none
    else findItalClose d f (c :: accRev) cs

/-- `replace(/(?<!d)d(?!d)(.+?)(?<!d)d(?!d)/g, opn + $1 + cls)`; `prev` is the
character before the scan position in the subject string (the lookbehind). -/
def italScan (d : Char) (opn cls : Str) : Nat → Option Char → Str → Str
  | 0, _, s => s
  | _, _, [] => []
  | f + 1, prev, c :: cs =>
    if c == d && prev != some d && cs.head? != some d then
      match findItalClose d (cs.length + 1) [] cs with
      | some (inner, rest) => opn ++ inner ++ cls ++ italScan d opn cls f (some d) rest
      | none => c :: italScan d opn cls f (some c) cs
    else c :: italScan d opn cls f (some c) cs

def strongOpen : Str := "<strong>".data
def strongClose : Str := "</strong>".data
def emOpen : Str := "<em>".data
def emClose : Str := "</em>".data
def pOpen : Str := "<p>".data
def pClose : Str := "</p>".data
def ulOpen : Str := "<ul>".data
def ulClose : Str := "</ul>".data
def olOpen : Str := "<ol>".data
def olClose : Str := "</ol>".data
def liOpen : Str := "<li>".data
def liClose : Str := "</li>".data
def pBreak : Str := "</p><p>".data

/-- `line.match(/^[-*]\s+(.+)$/)` on an already-trimmed line. -/
def unorderedMatch (l : Str) : Option Str :=
  match l with
  | c :: rest =>
    if (c == '-' || c == '*') &&
        (match rest.head? with | some w => isJsWs w | none => false) then
      let content := rest.dropWhile isJsWs
      if content.isEmpty then none else some content
    else none
  | [] => none

/-- `line.match(/^\d+\.\s+(.+)$/)` on an already-trimmed line. -/
def orderedMatch (l : Str) : Option Str :=
  let ds := l.takeWhile Char.isDigit
  if ds.isEmpty then none
  else
    match l.drop ds.length with
    | '.' :: rest =>
      if (match rest.head? with | some w => isJsWs w | none => false) then
        let content := rest.dropWhile isJsWs
        if content.isEmpty then none else some content
      else none
    | _ => none

/-- The line-oriented block pass of `formatBodyForInsert` (lines 1287-1360).
`racc` holds the processed lines in reverse (`racc.head?` is the last pushed
line, which the source mutates in place). -/
def procLines : List Str → List Str → Bool → Bool → List Str
  | [], racc, inUL, inOL =>
    let racc1 := if inUL then ulClose :: racc else racc
    let racc2 := if inOL then olClose :: racc1 else racc1
    racc2.reverse
  | ln :: rest, racc, inUL, inOL =>
    let line := trimJs ln
    match unorderedMatch line with
    | some content =>
      let racc1 := if inOL then olClose :: racc else racc
      let racc2 := if !inUL then ulOpen :: racc1 else racc1
      procLines rest ((liOpen ++ content ++ liClose) :: racc2) true false
    | none =>
    match orderedMatch line with
    | some content =>
      let racc1 := if inUL then ulClose :: racc else racc
      let racc2 := if !inOL then olOpen :: racc1 else racc1
      procLines rest ((liOpen ++ content ++ liClose) :: racc2) false true
    | none =>
      let racc1 := if inUL then ulClose :: racc else racc
      let racc2 := if inOL then olClose :: racc1 else racc1
      if line.isEmpty then
        let racc3 :=
          if !racc2.isEmpty &&
              !(match racc2.head? with
                | some last => endsWithL last pClose
                | none => false) then pBreak :: racc2
          else racc2
        procLines rest racc3 false false
      else
        match racc2.head? with
        | none => procLines rest ((pOpen ++ line) :: racc2) false false
        | some last =>
          if endsWithL last pClose || endsWithL last ulClose || endsWithL last olClose then
            procLines rest ((pOpen ++ line) :: racc2) false false
          else if last == pBreak then
            procLines rest ((pBreak ++ line) :: racc2.tail) false false
          else
            procLines rest ((pOpen ++ line) :: (last ++ pClose) :: racc2.tail) false false

/-- `formatBodyForInsert(body)` (settings.js lines 1265-1374). -/
def formatBodyForInsert (body : Str) : Str :=
  if hasHtmlTag body then addOutlookStyles body
  else
    let h1 := boldScan '*' strongOpen strongClose body.length body
    let h2 := italScan '*' emOpen emClose h1.length none h1
    let h3 := boldScan '_' strongOpen strongClose h2.length h2
    let h4 := italScan '_' emOpen emClose h3.length none h3
    let result := joinAll (procLines (splitNl h4) [] false false)
    if occursExact pOpen result && !endsWithL result pClose &&
        !endsWithL result ulClose && !endsWithL result olClose then
      result ++ pClose
    else if !occursExact pOpen result && !occursExact ulOpen result &&
        !occursExact ("ol>".data) result then
      addOutlookStyles (pOpen ++ result ++ pClose)
    else addOutlookStyles result

/-!  ## Completion-result handling — `handleProcess` (settings.js lines 852-866)

The caller does `JSON.parse(result)` in a `try`, and on any parse exception
degrades to `{subject: '', body: result}`.  `jsonParse` below models the
acceptance and value of `JSON.parse` (standard JSON grammar); parse failure is
`none`, so the `catch` branch becomes the `none` branch of
`handleProcessParse`. -/

inductive Js where
  | jnull : Js
  | jbool : Bool → Js
  | jnum : Str → Js
  | jstr : Str → Js
  | jarr : List Js → Js
  | jobj : List (Str × Js) → Js

def isJsonWs (c : Char) : Bool :=
  c == ' ' || c == '\t' || c == '\n' || c == '\r'

def jsonSkipWs (s : Str) : Str := s.dropWhile isJsonWs

def hexVal (c : Char) : Option Nat :=
  if '0' ≤ c && c ≤ '9' then some (c.toNat - 48)
  else if 'a' ≤ c && c ≤ 'f' then some (c.toNat - 87)
  else if 'A' ≤ c && c ≤ 'F' then some (c.toNat - 55)
  else none

/-- JSON string body after the opening quote: decoded content and the rest
after the closing quote. -/
def parseJsonString : Nat → Str → Option (Str × Str)
  | 0, _ => none
  | _, [] => none
  | f + 1, c :: r =>
    if c == '"' then some ([], r)
    else if c == '\\' then
      match r with
      | e :: r1 =>
        let dec : Option (Char × Str) :=
          if e == '"' then some ('"', r1)
          else if e == '\\' then some ('\\', r1)
          else if e == '/' then some ('/', r1)
          else if e == 'b' then some ('\x08', r1)
          else if e == 'f' then some ('\x0c', r1)
          else if e == 'n' then some ('\n', r1)
          else if e == 'r' then some ('\r', r1)
          else if e == 't' then some ('\t', r1)
          else if e == 'u' then
            match r1 with
            | a :: b :: g :: d :: r2 =>
              match hexVal a, hexVal b, hexVal g, hexVal d with
              | some x, some y, some z, some w =>
                some (Char.ofNat (((x * 16 + y) * 16 + z) * 16 + w), r2)
              | _, _, _, _ => none
            | _ => none
          else none
        match dec with
        | some (ch, r2) =>
          match parseJsonString f r2 with
          | some (t, rest) => some (ch :: t, rest)
          | none => none
        | none => none
      | [] => none
    else if c.toNat < 32 then none
    else
      match parseJsonString f r with
      | some (t, rest) => some (c :: t, rest)
      | none => none

/-- JSON number token: raw characters and the rest. -/
def parseJsonNumber (s : Str) : Option (Str × Str) :=
  let (neg, s1) := match s with | '-' :: r => (['-'], r) | _ => (([] : Str), s)
  let ip := s1.takeWhile Char.isDigit
  if ip.isEmpty then none
  else if 1 < ip.length && ip.head? == some '0' then none
  else
    let s2 := s1.drop ip.length
    let (fp, s3) :=
      match s2 with
      | '.' :: r =>
        let ds := r.takeWhile Char.isDigit
        if ds.isEmpty then (([] : Str), s2) else ('.' :: ds, r.drop ds.length)
      | _ => (([] : Str), s2)
    if s2 ≠ s3 ∨ fp.isEmpty then
      let (ep, s4) :=
        match s3 with
        | e :: r =>
          if e == 'e' || e == 'E' then
            let (sg, r1) := match r with
              | g :: r2 => if g == '+' || g == '-' then ([g], r2) else (([] : Str), r)
              | [] => (([] : Str), r)
            let ds := r1.takeWhile Char.isDigit
            if ds.isEmpty then (([] : Str), s3)
            else (e :: sg ++ ds, r1.drop ds.length)
          else (([] : Str), s3)
        | [] => (([] : Str), s3)
      some (neg ++ ip ++ fp ++ ep, s4)
    else none

/-- Parser jobs: a value, array items (just after `[`), array items after a
comma, object members (just after the brace), object members after a comma. -/
inductive PJob where
  | val : Str → PJob
  | arrItems : Str → PJob
  | arrCont : Str → PJob
  | objItems : Str → PJob
  | objCont : Str → PJob

inductive JRes where
  | rv : Js → Str → JRes
  | ra : List Js → Str → JRes
  | ro : List (Str × Js) → Str → JRes

/-- Recursive-descent JSON parser (fuel-indexed, structurally recursive). -/
def parseJ : Nat → PJob → Option JRes
  | 0, _ => none
  | f + 1, .val s =>
    match s with
    | 'n' :: 'u' :: 'l' :: 'l' :: r => some (.rv .jnull r)
    | 't' :: 'r' :: 'u' :: 'e' :: r => some (.rv (.jbool true) r)
    | 'f' :: 'a' :: 'l' :: 's' :: 'e' :: r => some (.rv (.jbool false) r)
    | '"' :: r =>
      match parseJsonString (r.length + 1) r with
      | some (t, rest) => some (.rv (.jstr t) rest)
      | none => none
    | '[' :: r =>
      match parseJ f (.arrItems r) with
      | some (.ra vs rr) => some (.rv (.jarr vs) rr)
      | _ => none
    | '\x7b' :: r =>
      match parseJ f (.objItems r) with
      | some (.ro fs rr) => some (.rv (.jobj fs) rr)
      | _ => none
    | _ =>
      match parseJsonNumber s with
      | some (t, rest) => some (.rv (.jnum t) rest)
      | none => none
  | f + 1, .arrItems s =>
    match jsonSkipWs s with
    | ']' :: r => some (.ra [] r)
    | s0 => parseJ f (.arrCont s0)
  | f + 1, .arrCont s =>
    match parseJ f (.val (jsonSkipWs s)) with
    | some (.rv v r) =>
      (match jsonSkipWs r with
       | ',' :: r2 =>
         match parseJ f (.arrCont r2) with
         | some (.ra vs rr) => some (.ra (v :: vs) rr)
         | _ => none
       | ']' :: r2 => some (.ra [v] r2)
       | _ => none)
    | _ => none
  | f + 1, .objItems s =>
    match jsonSkipWs s with
    | '\x7d' :: r => some (.ro [] r)
    | s0 => parseJ f (.objCont s0)
  | f + 1, .objCont s =>
    match jsonSkipWs s with
    | '"' :: r =>
      match parseJsonString (r.length + 1) r with
      | some (k, r1) =>
        (match jsonSkipWs r1 with
         | ':' :: r2 =>
           match parseJ f (.val (jsonSkipWs r2)) with
           | some (.rv v r3) =>
             (match jsonSkipWs r3 with
              | ',' :: r4 =>
                match parseJ f (.objCont r4) with
                | some (.ro fs rr) => some (.ro ((k, v) :: fs) rr)
                | _ => none
              | '\x7d' :: r4 => some (.ro [(k, v)] r4)
              | _ => none)
           | _ => none
         | _ => none)
      | none => none
    | _ => none

/-- `JSON.parse` acceptance and value: a single JSON value with only
whitespace around it. -/
def jsonParse (s : Str) : Option Js :=
  match parseJ (2 * s.length + 2) (.val (jsonSkipWs s)) with
  | some (.rv v r) => if (jsonSkipWs r).isEmpty then some v else none
  | _ => none

/-- Field lookup on a parsed completion result (property access on the
parsed object; `none` models `undefined`). -/
def jsField (v : Js) (k : Str) : Option Js :=
  match v with
  | .jobj fs =>
    match fs.find? (fun p => p.1 == k) with
    | some p => some p.2
    | none => none
  | _ => none

/-- The `try { JSON.parse } catch`-block of `handleProcess` (lines 855-863):
a parse failure degrades to the whole raw text as body with an empty
subject; a parse success is used as-is. -/
def handleProcessParse (raw : Str) : Js :=
  match jsonParse raw with
  | some v => v
  | none => .jobj [(("subject".data), .jstr []), (("body".data), .jstr raw)]

/-!  ## Prompt manager — `promptManager.update` / `promptManager.delete`
(`src/lib/prompt-manager.js`)  -/

structure Prompt where
  id : Str
  name : Str
  instruction : Str
deriving DecidableEq

/-- `findIndex` on the prompt id followed by in-place replacement keeping the
spread of the old prompt: `none` when the id is absent. -/
def pmUpdateList (id name instruction : Str) : List Prompt → Option (List Prompt)
  | [] => none
  | p :: ps =>
    if p.id == id then
      some ({ p with name := trimJs name, instruction := trimJs instruction } :: ps)
    else (pmUpdateList id name instruction ps).map (p :: ·)

/-- `promptManager.update(id, name, instruction)`: the returned Bool is the
update result, the list is the stored prompt list afterwards (unchanged —
no storage write — when the id is absent). -/
def promptUpdate (prompts : List Prompt) (id name instruction : Str) :
    Bool × List Prompt :=
  match pmUpdateList id name instruction prompts with
  | some ps => (true, ps)
  | none => (false, prompts)

/-- `promptManager.delete(id)`: filter out the id; when the length is
unchanged return `false` and do not write. -/
def promptDelete (prompts : List Prompt) (id : Str) : Bool × List Prompt :=
  let filtered := prompts.filter (fun p => p.id != id)
  if filtered.length == prompts.length then (false, prompts) else (true, filtered)

/-- The compose document of the round-trip scenario
`<div>Hello world</div><hr tabindex="-1"><div>From: A Sent: B To: C Subject: D</div>`,
as the parsed children of the wrapper. -/
def c3doc : List Node :=
  [Node.elem ("div".data) [] [] [] [Node.text ("Hello world".data)],
   Node.elem ("hr".data) [] [] [(("tabindex".data), ("-1".data))] [],
   Node.elem ("div".data) [] [] []
     [Node.text ("From: A Sent: B To: C Subject: D".data)]]

/-!  ## Lemmas about `replaceCI`  -/

theorem replaceCIGo_succ (pat repl : Str) (n : Nat) (c : Char) (cs : Str) :
    replaceCIGo pat repl (n + 1) (c :: cs) = replaceCIGo pat repl n cs := rfl

theorem replaceCIGo_jump (pat repl : Str) : ∀ (n : Nat) (s : Str),
    replaceCIGo pat repl n s = replaceCI pat repl (s.drop n)
  | 0, _ => rfl
  | _ + 1, [] => rfl
  | n + 1, c :: cs => by
    rw [replaceCIGo_succ, replaceCIGo_jump pat repl n cs]; rfl

theorem replaceCI_nil (pat repl : Str) : replaceCI pat repl [] = [] := rfl

theorem replaceCI_cons_pos (pat repl : Str) (c : Char) (cs : Str)
    (h : matchesCI pat (c :: cs) = true) :
    replaceCI pat repl (c :: cs) =
      repl ++ replaceCI pat repl (cs.drop (pat.length - 1)) := by
  show replaceCIGo pat repl 0 (c :: cs) = _
  unfold replaceCIGo
  rw [if_pos h, replaceCIGo_jump]

theorem replaceCI_cons_neg (pat repl : Str) (c : Char) (cs : Str)
    (h : matchesCI pat (c :: cs) = false) :
    replaceCI pat repl (c :: cs) = c :: replaceCI pat repl cs := by
  show replaceCIGo pat repl 0 (c :: cs) = _
  unfold replaceCIGo
  rw [if_neg (by simp [h])]
  rfl

theorem ciEq_comm (a b : Char) : ciEq a b = ciEq b a := by
  simp only [ciEq, beq_iff_eq]
  exact decide_eq_decide.mpr eq_comm

theorem occursCI_cons (pat : Str) (c : Char) (cs : Str) :
    occursCI pat (c :: cs) = (matchesCI pat (c :: cs) || occursCI pat cs) := rfl

theorem occursCI_drop (pat : Str) : ∀ (k : Nat) (s : Str),
    occursCI pat s = false → occursCI pat (s.drop k) = false
  | 0, _, h => h
  | _ + 1, [], h => h
  | k + 1, _ :: cs, h => by
    rw [occursCI_cons, Bool.or_eq_false_iff] at h
    exact occursCI_drop pat k cs h.2

theorem matchesCI_append_left (pat : Str) : ∀ (a b : Str),
    pat.length ≤ a.length → matchesCI pat (a ++ b) = matchesCI pat a := by
  induction pat with
  | nil => intro a b _; rfl
  | cons p ps ih =>
    intro a b h
    cases a with
    | nil => simp at h
    | cons c cs =>
      show (ciEq p c && matchesCI ps (cs ++ b)) = (ciEq p c && matchesCI ps cs)
      rw [ih cs b (by simpa using h)]

theorem replaceCI_of_no_occ (pat repl : Str) : ∀ (s : Str),
    occursCI pat s = false → replaceCI pat repl s = s
  | [], _ => rfl
  | c :: cs, h => by
    rw [occursCI_cons, Bool.or_eq_false_iff] at h
    rw [replaceCI_cons_neg pat repl c cs h.1, replaceCI_of_no_occ pat repl cs h.2]

theorem replaceCI_repl_infix (pat repl : Str) (hp : pat ≠ []) : ∀ (s : Str),
    occursCI pat s = true → ∃ u v, replaceCI pat repl s = u ++ (repl ++ v)
  | [], h => by
    cases pat with
    | nil => exact absurd rfl hp
    | cons p ps => exact absurd h (by simp [occursCI, matchesCI])
  | c :: cs, h => by
    cases hm : matchesCI pat (c :: cs) with
    | true =>
      exact ⟨[], replaceCI pat repl (cs.drop (pat.length - 1)),
        by rw [replaceCI_cons_pos pat repl c cs hm]; rfl⟩
    | false =>
      have htail : occursCI pat cs = true := by
        rw [occursCI_cons, hm] at h; simpa using h
      obtain ⟨u, v, huv⟩ := replaceCI_repl_infix pat repl hp cs htail
      exact ⟨c :: u, v, by rw [replaceCI_cons_neg pat repl c cs hm, huv]; rfl⟩

theorem replaceCI_ne_nil (pat repl : Str) (c : Char) (cs : Str) (hr : repl ≠ []) :
    replaceCI pat repl (c :: cs) ≠ [] := by
  cases hm : matchesCI pat (c :: cs) with
  | true =>
    rw [replaceCI_cons_pos pat repl c cs hm]
    cases repl with
    | nil => exact absurd rfl hr
    | cons r rs => simp
  | false =>
    rw [replaceCI_cons_neg pat repl c cs hm]
    simp

/-!  ## `hasHtmlTag` is preserved by the style-injection replaces  -/

theorem hasGt_append (a b : Str) (h : hasGt a = true) : hasGt (a ++ b) = true := by
  induction a with
  | nil => simp [hasGt] at h
  | cons c cs ih =>
    show (c == '>' || hasGt (cs ++ b)) = true
    rcases Bool.or_eq_true_iff.mp h with h1 | h2
    · simp [h1]
    · simp [ih h2]

theorem hasHtmlTag_cons (c : Char) (w : Str) (h : hasHtmlTag w = true) :
    hasHtmlTag (c :: w) = true := by
  cases w with
  | nil => simp [hasHtmlTag] at h
  | cons d w' =>
    cases w' with
    | nil => simp [hasHtmlTag] at h
    | cons e r =>
      show (_ || hasHtmlTag (d :: e :: r)) = true
      simp [h]

theorem hasHtmlTag_append_right (m v : Str) (h : hasHtmlTag m = true) :
    hasHtmlTag (m ++ v) = true := by
  induction m with
  | nil => simp [hasHtmlTag] at h
  | cons c m' ih =>
    cases m' with
    | nil => simp [hasHtmlTag] at h
    | cons d r =>
      show (c == '<' && isAsciiAlpha d && hasGt (r ++ v) || hasHtmlTag (d :: (r ++ v))) = true
      rcases Bool.or_eq_true_iff.mp h with h1 | h2
      · rw [Bool.and_eq_true, Bool.and_eq_true] at h1
        simp [h1.1.1, h1.1.2, hasGt_append r v h1.2]
      · have := ih h2
        rw [List.cons_append] at this
        simp [this]

theorem hasHtmlTag_append_left (u w : Str) (h : hasHtmlTag w = true) :
    hasHtmlTag (u ++ w) = true := by
  induction u with
  | nil => exact h
  | cons c u' ih => exact hasHtmlTag_cons c (u' ++ w) ih

theorem hasHtmlTag_replaceCI (pat repl s : Str) (hp : pat ≠ [])
    (hrepl : hasHtmlTag repl = true) (h : hasHtmlTag s = true) :
    hasHtmlTag (replaceCI pat repl s) = true := by
  cases hocc : occursCI pat s with
  | false => rw [replaceCI_of_no_occ pat repl s hocc]; exact h
  | true =>
    obtain ⟨u, v, huv⟩ := replaceCI_repl_infix pat repl hp s hocc
    rw [huv]
    exact hasHtmlTag_append_left u _ (hasHtmlTag_append_right repl v hrepl)

/-!  ## After a style-injection replace, the replaced tag no longer occurs  -/

theorem matchesCI_replaceCI_of_not (pat repl rt : Str) (hr : repl = '<' :: rt) :
    ∀ (s q : Str), (∀ c ∈ q, ciEq '<' c = false) → matchesCI q s = false →
      matchesCI q (replaceCI pat repl s) = false := by
  intro s
  induction s with
  | nil => intro q _ h; rw [replaceCI_nil]; exact h
  | cons c cs ih =>
    intro q hq h
    cases hm : matchesCI pat (c :: cs) with
    | true =>
      rw [replaceCI_cons_pos pat repl c cs hm]
      cases q with
      | nil => exact absurd h (by simp [matchesCI])
      | cons q0 qt =>
        rw [hr]
        show (ciEq q0 '<' && _) = false
        rw [ciEq_comm, hq q0 (by simp)]
        rfl
    | false =>
      rw [replaceCI_cons_neg pat repl c cs hm]
      cases q with
      | nil => exact absurd h (by simp [matchesCI])
      | cons q0 qt =>
        show (ciEq q0 c && matchesCI qt (replaceCI pat repl cs)) = false
        cases hc : ciEq q0 c with
        | false => rfl
        | true =>
          have hqt : matchesCI qt cs = false := by
            have : (ciEq q0 c && matchesCI qt cs) = false := h
            rwa [hc, Bool.true_and] at this
          rw [ih qt (fun d hd => hq d (by simp [hd])) hqt]
          rfl

theorem occursCI_append_nonlt (pt : Str) : ∀ (l b : Str),
    (∀ c ∈ l, ciEq '<' c = false) → occursCI ('<' :: pt) b = false →
    occursCI ('<' :: pt) (l ++ b) = false
  | [], _, _, hb => hb
  | c :: l', b, hl, hb => by
    show (matchesCI ('<' :: pt) (c :: (l' ++ b)) || _) = false
    have h1 : ciEq '<' c = false := hl c (by simp)
    show ((ciEq '<' c && _) || occursCI ('<' :: pt) (l' ++ b)) = false
    rw [h1, Bool.false_and, Bool.false_or]
    exact occursCI_append_nonlt pt l' b (fun d hd => hl d (by simp [hd])) hb

theorem occursCI_repl_append (pt rt : Str)
    (hrt : ∀ c ∈ rt, ciEq '<' c = false)
    (hm : matchesCI ('<' :: pt) ('<' :: rt) = false)
    (hl : ('<' :: pt).length ≤ rt.length + 1)
    (t : Str) (ht : occursCI ('<' :: pt) t = false) :
    occursCI ('<' :: pt) (('<' :: rt) ++ t) = false := by
  have hgoal : occursCI ('<' :: pt) (('<' :: rt) ++ t) =
      (matchesCI ('<' :: pt) (('<' :: rt) ++ t) || occursCI ('<' :: pt) (rt ++ t)) := rfl
  have h1 : matchesCI ('<' :: pt) (('<' :: rt) ++ t) = matchesCI ('<' :: pt) ('<' :: rt) :=
    matchesCI_append_left ('<' :: pt) ('<' :: rt) t (by simpa using hl)
  rw [hgoal, h1, hm, Bool.false_or]
  exact occursCI_append_nonlt pt rt t hrt ht

theorem occursCI_replaceCI_self (pat pt rt repl : Str) (hp : pat = '<' :: pt)
    (hpt : ∀ c ∈ pt, ciEq '<' c = false) (hr : repl = '<' :: rt)
    (hrt : ∀ c ∈ rt, ciEq '<' c = false)
    (hm : matchesCI pat repl = false) (hl : pat.length ≤ repl.length) :
    ∀ s, occursCI pat (replaceCI pat repl s) = false := by
  subst hp; subst hr
  suffices H : ∀ (n : Nat) (s : Str), s.length ≤ n →
      occursCI ('<' :: pt) (replaceCI ('<' :: pt) ('<' :: rt) s) = false by
    intro s; exact H s.length s le_rfl
  intro n
  induction n with
  | zero =>
    intro s hs
    have hnil : s = [] := List.eq_nil_of_length_eq_zero (Nat.le_zero.mp hs)
    subst hnil
    rfl
  | succ n ih =>
    intro s hs
    cases s with
    | nil => rfl
    | cons c cs =>
      cases hm2 : matchesCI ('<' :: pt) (c :: cs) with
      | true =>
        rw [replaceCI_cons_pos _ _ c cs hm2]
        refine occursCI_repl_append pt rt hrt hm (by simpa using hl) _ ?_
        refine ih _ (le_trans ?_ (Nat.le_of_succ_le_succ (by simpa using hs)))
        rw [List.length_drop]
        exact Nat.sub_le _ _
      | false =>
        rw [replaceCI_cons_neg _ _ c cs hm2]
        have h2 : occursCI ('<' :: pt) (replaceCI ('<' :: pt) ('<' :: rt) cs) = false :=
          ih cs (Nat.le_of_succ_le_succ (by simpa using hs))
        show (matchesCI ('<' :: pt) (c :: replaceCI ('<' :: pt) ('<' :: rt) cs) || _) = false
        rw [Bool.or_eq_false_iff]
        refine ⟨?_, h2⟩
        show (ciEq '<' c && matchesCI pt (replaceCI ('<' :: pt) ('<' :: rt) cs)) = false
        cases hc : ciEq '<' c with
        | false => rfl
        | true =>
          have hptcs : matchesCI pt cs = false := by
            have h3 : (ciEq '<' c && matchesCI pt cs) = false := hm2
            rwa [hc, Bool.true_and] at h3
          rw [matchesCI_replaceCI_of_not ('<' :: pt) ('<' :: rt) rt rfl cs pt hpt hptcs]
          rfl

theorem occursCI_replaceCI_other (p pt : Str) (hp : p = '<' :: pt)
    (hpt : ∀ c ∈ pt, ciEq '<' c = false)
    (pat2 repl2 rt2 : Str) (hr : repl2 = '<' :: rt2)
    (hrt : ∀ c ∈ rt2, ciEq '<' c = false)
    (hm : matchesCI p repl2 = false) (hl : p.length ≤ repl2.length) :
    ∀ s, occursCI p s = false → occursCI p (replaceCI pat2 repl2 s) = false := by
  subst hp; subst hr
  suffices H : ∀ (n : Nat) (s : Str), s.length ≤ n → occursCI ('<' :: pt) s = false →
      occursCI ('<' :: pt) (replaceCI pat2 ('<' :: rt2) s) = false by
    intro s; exact H s.length s le_rfl
  intro n
  induction n with
  | zero =>
    intro s hs hno
    have hnil : s = [] := List.eq_nil_of_length_eq_zero (Nat.le_zero.mp hs)
    subst hnil
    rwa [replaceCI_nil]
  | succ n ih =>
    intro s hs hno
    cases s with
    | nil => rwa [replaceCI_nil]
    | cons c cs =>
      have hno' : occursCI ('<' :: pt) cs = false := by
        rw [occursCI_cons, Bool.or_eq_false_iff] at hno
        exact hno.2
      have hnohead : matchesCI ('<' :: pt) (c :: cs) = false := by
        rw [occursCI_cons, Bool.or_eq_false_iff] at hno
        exact hno.1
      cases hm2 : matchesCI pat2 (c :: cs) with
      | true =>
        rw [replaceCI_cons_pos _ _ c cs hm2]
        refine occursCI_repl_append pt rt2 hrt hm (by simpa using hl) _ ?_
        refine ih _ (le_trans ?_ (Nat.le_of_succ_le_succ (by simpa using hs)))
          (occursCI_drop _ _ cs hno')
        rw [List.length_drop]
        exact Nat.sub_le _ _
      | false =>
        rw [replaceCI_cons_neg _ _ c cs hm2]
        have h2 : occursCI ('<' :: pt) (replaceCI pat2 ('<' :: rt2) cs) = false :=
          ih cs (Nat.le_of_succ_le_succ (by simpa using hs)) hno'
        show (matchesCI ('<' :: pt) (c :: replaceCI pat2 ('<' :: rt2) cs) || _) = false
        rw [Bool.or_eq_false_iff]
        refine ⟨?_, h2⟩
        show (ciEq '<' c && matchesCI pt (replaceCI pat2 ('<' :: rt2) cs)) = false
        cases hc : ciEq '<' c with
        | false => rfl
        | true =>
          have hptcs : matchesCI pt cs = false := by
            have h3 : (ciEq '<' c && matchesCI pt cs) = false := hnohead
            rwa [hc, Bool.true_and] at h3
          rw [matchesCI_replaceCI_of_not pat2 ('<' :: rt2) rt2 rfl cs pt hpt hptcs]
          rfl

/-!  ## Idempotence of `addOutlookStyles`  -/

theorem occursCI_pTag_after_p (s : Str) :
    occursCI pTagPat (replaceCI pTagPat pTagRepl s) = false :=
  occursCI_replaceCI_self pTagPat ("p>".data) pTagRepl.tail pTagRepl rfl
    (by decide) rfl (by decide) (by decide) (by decide) s

theorem occursCI_ulTag_after_ul (s : Str) :
    occursCI ulTagPat (replaceCI ulTagPat ulTagRepl s) = false :=
  occursCI_replaceCI_self ulTagPat ("ul>".data) ulTagRepl.tail ulTagRepl rfl
    (by decide) rfl (by decide) (by decide) (by decide) s

theorem occursCI_olTag_after_ol (s : Str) :
    occursCI olTagPat (replaceCI olTagPat olTagRepl s) = false :=
  occursCI_replaceCI_self olTagPat ("ol>".data) olTagRepl.tail olTagRepl rfl
    (by decide) rfl (by decide) (by decide) (by decide) s

theorem occursCI_pTag_through_ul (s : Str) (h : occursCI pTagPat s = false) :
    occursCI pTagPat (replaceCI ulTagPat ulTagRepl s) = false :=
  occursCI_replaceCI_other pTagPat ("p>".data) rfl (by decide)
    ulTagPat ulTagRepl ulTagRepl.tail rfl (by decide) (by decide) (by decide) s h

theorem occursCI_pTag_through_ol (s : Str) (h : occursCI pTagPat s = false) :
    occursCI pTagPat (replaceCI olTagPat olTagRepl s) = false :=
  occursCI_replaceCI_other pTagPat ("p>".data) rfl (by decide)
    olTagPat olTagRepl olTagRepl.tail rfl (by decide) (by decide) (by decide) s h

theorem occursCI_ulTag_through_ol (s : Str) (h : occursCI ulTagPat s = false) :
    occursCI ulTagPat (replaceCI olTagPat olTagRepl s) = false :=
  occursCI_replaceCI_other ulTagPat ("ul>".data) rfl (by decide)
    olTagPat olTagRepl olTagRepl.tail rfl (by decide) (by decide) (by decide) s h

theorem addOutlookStyles_nil : addOutlookStyles [] = [] := rfl

theorem addOutlookStyles_cons (c : Char) (cs : Str) :
    addOutlookStyles (c :: cs) =
      replaceCI olTagPat olTagRepl
        (replaceCI ulTagPat ulTagRepl (replaceCI pTagPat pTagRepl (c :: cs))) := rfl

theorem addOutlookStyles_ne_nil (c : Char) (cs : Str) :
    addOutlookStyles (c :: cs) ≠ [] := by
  rw [addOutlookStyles_cons]
  cases h1 : replaceCI pTagPat pTagRepl (c :: cs) with
  | nil => exact absurd h1 (replaceCI_ne_nil pTagPat pTagRepl c cs (by decide))
  | cons d ds =>
    cases h2 : replaceCI ulTagPat ulTagRepl (d :: ds) with
    | nil => exact absurd h2 (replaceCI_ne_nil ulTagPat ulTagRepl d ds (by decide))
    | cons e es => exact replaceCI_ne_nil olTagPat olTagRepl e es (by decide)

/-- Re-running the inline style injection on its own output changes nothing:
after the first pass none of the three literal tags occurs any more. -/
theorem addOutlookStyles_idem (s : Str) :
    addOutlookStyles (addOutlookStyles s) = addOutlookStyles s := by
  cases s with
  | nil => rfl
  | cons c cs =>
    have hA : addOutlookStyles (c :: cs) =
        replaceCI olTagPat olTagRepl
          (replaceCI ulTagPat ulTagRepl (replaceCI pTagPat pTagRepl (c :: cs))) :=
      addOutlookStyles_cons c cs
    set w := replaceCI olTagPat olTagRepl
      (replaceCI ulTagPat ulTagRepl (replaceCI pTagPat pTagRepl (c :: cs))) with hw
    have hnoP : occursCI pTagPat w = false := by
      rw [hw]
      exact occursCI_pTag_through_ol _
        (occursCI_pTag_through_ul _ (occursCI_pTag_after_p (c :: cs)))
    have hnoUl : occursCI ulTagPat w = false := by
      rw [hw]
      exact occursCI_ulTag_through_ol _ (occursCI_ulTag_after_ul _)
    have hnoOl : occursCI olTagPat w = false := by
      rw [hw]
      exact occursCI_olTag_after_ol _
    have hwne : w ≠ [] := by rw [← hA]; exact addOutlookStyles_ne_nil c cs
    rw [hA]
    cases hwc : w with
    | nil => exact absurd hwc hwne
    | cons d ds =>
      rw [← hwc, show addOutlookStyles w = replaceCI olTagPat olTagRepl
          (replaceCI ulTagPat ulTagRepl (replaceCI pTagPat pTagRepl w)) from by
        rw [hwc]; rfl]
      rw [replaceCI_of_no_occ _ _ _ hnoP, replaceCI_of_no_occ _ _ _ hnoUl,
        replaceCI_of_no_occ _ _ _ hnoOl]

/-!  ## Exact-substring preservation through the style injection  -/

theorem isPrefExact_replaceCI (pt repl : Str) :
    ∀ (sub s : Str), (∀ c ∈ sub, ciEq '<' c = false) →
      isPrefExact sub s = true →
      isPrefExact sub (replaceCI ('<' :: pt) repl s) = true := by
  intro sub
  induction sub with
  | nil => intro s _ _; rfl
  | cons x sub' ih =>
    intro s hsub h
    cases s with
    | nil => exact absurd h (by simp [isPrefExact])
    | cons c cs =>
      have hxc : x = c := by
        have h1 : (x == c && isPrefExact sub' cs) = true := h
        rw [Bool.and_eq_true, beq_iff_eq] at h1
        exact h1.1
      have hpre : isPrefExact sub' cs = true := by
        have h1 : (x == c && isPrefExact sub' cs) = true := h
        rw [Bool.and_eq_true] at h1
        exact h1.2
      cases hm : matchesCI ('<' :: pt) (c :: cs) with
      | true =>
        exfalso
        have hcis : ciEq '<' c = true := by
          have h1 : (ciEq '<' c && matchesCI pt cs) = true := hm
          rw [Bool.and_eq_true] at h1
          exact h1.1
        have := hsub x (by simp)
        rw [hxc] at this
        rw [this] at hcis
        exact Bool.false_ne_true hcis
      | false =>
        rw [replaceCI_cons_neg _ _ c cs hm]
        show (x == c && isPrefExact sub' (replaceCI ('<' :: pt) repl cs)) = true
        rw [ih cs (fun d hd => hsub d (by simp [hd])) hpre, hxc]
        simp

theorem occursExact_append_left (sub : Str) : ∀ (a b : Str),
    occursExact sub b = true → occursExact sub (a ++ b) = true
  | [], _, h => h
  | c :: a', b, h => by
    show (isPrefExact sub (c :: (a' ++ b)) || occursExact sub (a' ++ b)) = true
    rw [occursExact_append_left sub a' b h]
    simp

theorem occursExact_drop_match (hd : Char) (subT : Str) :
    ∀ (q t : Str), matchesCI q t = true → (∀ d ∈ q, ciEq d hd = false) →
      occursExact (hd :: subT) t = true →
      occursExact (hd :: subT) (t.drop q.length) = true := by
  intro q
  induction q with
  | nil => intro t _ _ h; exact h
  | cons d q' ih =>
    intro t hm hq h
    cases t with
    | nil => exact absurd hm (by simp [matchesCI])
    | cons c t' =>
      have hmc : ciEq d c = true ∧ matchesCI q' t' = true := by
        have h1 : (ciEq d c && matchesCI q' t') = true := hm
        rwa [Bool.and_eq_true] at h1
      have htail : occursExact (hd :: subT) t' = true := by
        rcases Bool.or_eq_true_iff.mp h with h1 | h2
        · exfalso
          have hhd : hd = c := by
            have h3 : (hd == c && isPrefExact subT t') = true := h1
            rw [Bool.and_eq_true, beq_iff_eq] at h3
            exact h3.1
          have h4 := hq d (by simp)
          rw [hhd] at h4
          rw [h4] at hmc
          exact Bool.false_ne_true hmc.1
        · exact h2
      exact ih t' hmc.2 (fun e he => hq e (by simp [he])) htail

theorem occursExact_replaceCI (pt repl : Str) (hd : Char) (subT : Str)
    (hsub : ∀ c ∈ hd :: subT, ciEq '<' c = false)
    (hpd : ∀ d ∈ '<' :: pt, ciEq d hd = false) :
    ∀ s, occursExact (hd :: subT) s = true →
      occursExact (hd :: subT) (replaceCI ('<' :: pt) repl s) = true := by
  suffices H : ∀ (n : Nat) (s : Str), s.length ≤ n →
      occursExact (hd :: subT) s = true →
      occursExact (hd :: subT) (replaceCI ('<' :: pt) repl s) = true by
    intro s; exact H s.length s le_rfl
  intro n
  induction n with
  | zero =>
    intro s hs h
    have hnil : s = [] := List.eq_nil_of_length_eq_zero (Nat.le_zero.mp hs)
    subst hnil
    exact absurd h (by simp [occursExact, isPrefExact])
  | succ n ih =>
    intro s hs h
    cases s with
    | nil => exact absurd h (by simp [occursExact, isPrefExact])
    | cons c cs =>
      cases hm : matchesCI ('<' :: pt) (c :: cs) with
      | true =>
        rw [replaceCI_cons_pos _ _ c cs hm]
        have hdropped : occursExact (hd :: subT) ((c :: cs).drop ('<' :: pt).length) = true :=
          occursExact_drop_match hd subT ('<' :: pt) (c :: cs) hm hpd h
        have hlen : ('<' :: pt).length = pt.length + 1 := by simp
        have hdrop2 : (c :: cs).drop ('<' :: pt).length = cs.drop (('<' :: pt).length - 1) := by
          rw [hlen]; rfl
        rw [hdrop2] at hdropped
        refine occursExact_append_left (hd :: subT) repl _ ?_
        refine ih _ (le_trans ?_ (Nat.le_of_succ_le_succ (by simpa using hs))) hdropped
        rw [List.length_drop]
        exact Nat.sub_le _ _
      | false =>
        rw [replaceCI_cons_neg _ _ c cs hm]
        rcases Bool.or_eq_true_iff.mp h with h1 | h2
        · have := isPrefExact_replaceCI pt repl (hd :: subT) (c :: cs) hsub h1
          rw [replaceCI_cons_neg _ _ c cs hm] at this
          show (isPrefExact (hd :: subT) (c :: replaceCI ('<' :: pt) repl cs) || _) = true
          rw [this]
          simp
        · have := ih cs (Nat.le_of_succ_le_succ (by simpa using hs)) h2
          show (_ || occursExact (hd :: subT) (replaceCI ('<' :: pt) repl cs)) = true
          rw [this]
          simp

/-!  ## Claim theorems  -/

/-- C1 (counterexample): the claim quantifies over every completion body, but
on the markdown path the single-underscore italic transform pairs the
underscores of two placeholder tokens and rewrites across them: for the body
`See [[TABLE_1]] and [[IMAGE_1]]`, the output no longer contains `[[TABLE_1]]`. -/
theorem c1_counterexample :
    occursExact ("[[TABLE_1]]".data) ("See [[TABLE_1]] and [[IMAGE_1]]".data) = true ∧
    occursExact ("[[TABLE_1]]".data)
      (formatBodyForInsert ("See [[TABLE_1]] and [[IMAGE_1]]".data)) = false :=
  ⟨by decide, by decide⟩

/-- C1 (amended): on the already-HTML path (a body matching the HTML-tag
test), `formatBodyForInsert` passes every bracket-headed token that contains
no `<` — in particular every `[[KIND_N]]` placeholder — through as an
unmodified substring: the style injection only rewrites the literal tags
`<p>`, `<ul>`, `<ol>`. -/
theorem c1_placeholders_preserved_on_html_path (ph body : Str)
    (h0 : ph.head? = some '[') (h1 : ∀ c ∈ ph, ciEq '<' c = false)
    (h2 : hasHtmlTag body = true) (h3 : occursExact ph body = true) :
    occursExact ph (formatBodyForInsert body) = true := by
  obtain ⟨subT, rfl⟩ : ∃ t, ph = '[' :: t := by
    cases ph with
    | nil => simp at h0
    | cons a t =>
      simp only [List.head?_cons, Option.some.injEq] at h0
      exact ⟨t, by rw [h0]⟩
  have hne : body.isEmpty = false := by
    cases body with
    | nil => simp [hasHtmlTag] at h2
    | cons c cs => rfl
  have hfmt : formatBodyForInsert body = addOutlookStyles body := by
    unfold formatBodyForInsert
    rw [if_pos h2]
  have hsty : addOutlookStyles body =
      replaceCI olTagPat olTagRepl
        (replaceCI ulTagPat ulTagRepl (replaceCI pTagPat pTagRepl body)) := by
    unfold addOutlookStyles
    rw [if_neg (by simp [hne])]
  rw [hfmt, hsty]
  rw [show pTagPat = '<' :: ("p>".data) from rfl,
      show ulTagPat = '<' :: ("ul>".data) from rfl,
      show olTagPat = '<' :: ("ol>".data) from rfl]
  exact occursExact_replaceCI _ _ '[' subT h1 (by decide) _
    (occursExact_replaceCI _ _ '[' subT h1 (by decide) _
      (occursExact_replaceCI _ _ '[' subT h1 (by decide) body h3))

/-- C1 (witness): the scenario input `<p>See [[TABLE_1]] below.</p>` takes the
already-HTML path and the output contains `[[TABLE_1]]` unchanged. -/
theorem c1_placeholders_preserved_on_html_path_witness :
    hasHtmlTag ("<p>See [[TABLE_1]] below.</p>".data) = true ∧
    occursExact ("[[TABLE_1]]".data)
      (formatBodyForInsert ("<p>See [[TABLE_1]] below.</p>".data)) = true :=
  ⟨by decide, c1_placeholders_preserved_on_html_path _ _ rfl (by decide)
    (by decide) (by decide)⟩

/-- C2 (counterexample): the source checks `endsWith` against the *trimmed*
text, so a template with trailing whitespace is never matched: for
`T = "Hi\nsignature\n"` and `S = "signature\n"` (length 10 > 5, and `T` ends
with `S`), the detector returns `"Hi\nsignature"` instead of the claimed
`trim(T minus trailing S) = "Hi"`. -/
theorem c2_counterexample :
    5 < ("signature\n".data).length ∧
    endsWithL ("Hi\nsignature\n".data) ("signature\n".data) = true ∧
    stripSignature ("Hi\nsignature\n".data) (some ("signature\n".data)) ≠
      trimJs (("Hi\nsignature\n".data).take
        (("Hi\nsignature\n".data).length - ("signature\n".data).length)) :=
  ⟨by decide, by decide, by decide⟩

/-- C2 (amended): for every text `T` and template `S` with `len(S) > 5` such
that the *trimmed* `T` ends with `S`, `stripSignature` returns the trimmed
`T` with the trailing occurrence of `S` removed, trimmed again. -/
theorem c2_template_strip (T S : Str) (h5 : 5 < S.length)
    (he : endsWithL (trimJs T) S = true) :
    stripSignature T (some S) =
      trimJs ((trimJs T).take ((trimJs T).length - S.length)) := by
  show (if 5 < S.length ∧ endsWithL (trimJs T) S = true
        then trimJs ((trimJs T).take ((trimJs T).length - S.length))
        else stripSigPhase2 (trimJs T)) = _
  rw [if_pos ⟨h5, he⟩]

/-- C2 (witness): `T = "Hello there\nJohn Smith"`, `S = "John Smith"` yields
`"Hello there"`. -/
theorem c2_template_strip_witness :
    5 < ("John Smith".data).length ∧
    endsWithL (trimJs ("Hello there\nJohn Smith".data)) ("John Smith".data) = true ∧
    stripSignature ("Hello there\nJohn Smith".data) (some ("John Smith".data)) =
      trimJs ((trimJs ("Hello there\nJohn Smith".data)).take
        ((trimJs ("Hello there\nJohn Smith".data)).length - ("John Smith".data).length)) :=
  ⟨by decide, by decide, c2_template_strip _ _ (by decide) (by decide)⟩

/-- C3 (counterexample): the cleaned thread text does not contain the claimed
substring `"From:\nSent:\nTo:\nSubject:\n"` — no range pattern collapses the
value after `Subject:`, so the cleaned text ends `"Subject: D"`. -/
theorem c3_counterexample :
    occursExact ("From:\nSent:\nTo:\nSubject:\n".data)
      (cleanThreadContent (parseEmailHtml c3doc).threadContent) = false := by
  decide

/-- C3 (amended): for the compose document
`<div>Hello world</div><hr tabindex="-1"><div>From: A Sent: B To: C Subject: D</div>`
the locator finds the `<hr>` (root index 1), `currentMessageText` is
`"Hello world"`, and the cleaned thread text is
`"From:\nSent:\nTo:\nSubject: D"` — the From/Sent/To values are discarded,
the Subject label keeps its value. -/
theorem c3_round_trip :
    threadIdxParse c3doc = some 1 ∧
    parseEmailHtml c3doc =
      ⟨"Hello world".data, "From: A Sent: B To: C Subject: D".data⟩ ∧
    cleanThreadContent (parseEmailHtml c3doc).threadContent =
      "From:\nSent:\nTo:\nSubject: D".data :=
  ⟨by decide, by decide, by decide⟩

/-- C4: evaluation at the scenario input. The output has exactly one `<ul>`
with exactly two `<li>`, and one paragraph containing `Second paragraph`, but
a stray unmatched `</p>` is emitted between `</ul>` and `<p>` (two `</p>`
against one `<p>`), contradicting the claimed absence of stray paragraph
tags; the early return on this path also skips the style injection. -/
theorem c4_markdown_scenario :
    formatBodyForInsert ("- item one\n- item two\n\nSecond paragraph".data) =
      "<ul><li>item one</li><li>item two</li></ul></p><p>Second paragraph</p>".data ∧
    countSub ("<ul>".data)
      (formatBodyForInsert ("- item one\n- item two\n\nSecond paragraph".data)) = 1 ∧
    countSub ("<li>".data)
      (formatBodyForInsert ("- item one\n- item two\n\nSecond paragraph".data)) = 2 ∧
    countSub ("<p>".data)
      (formatBodyForInsert ("- item one\n- item two\n\nSecond paragraph".data)) = 1 ∧
    countSub ("</p>".data)
      (formatBodyForInsert ("- item one\n- item two\n\nSecond paragraph".data)) = 2 :=
  ⟨by decide, by decide, by decide, by decide, by decide⟩

/-- C5 (counterexample): the dash-separator pattern `\n--\s*\n` is tested
*before* the closing phrases, so for
`T = "Hello\nBest regards,\nJohn\n--\nfooter"` the cut happens at the `--`
line and the `Best regards,` line survives, contradicting the claim that the
`Best regards,` line and everything after it are removed. -/
theorem c5_counterexample :
    occursExact ('\n' :: ("Best regards,".data))
      ("Hello\nBest regards,\nJohn\n--\nfooter".data) = true ∧
    stripSignature ("Hello\nBest regards,\nJohn\n--\nfooter".data) none ≠
      "Hello".data ∧
    occursExact ("Best regards,".data)
      (stripSignature ("Hello\nBest regards,\nJohn\n--\nfooter".data) none) = true :=
  ⟨by decide, by decide, by decide⟩

/-- C5 (amended): with no template, for every text whose trimmed form
contains a newline-anchored `Best regards,` (case-insensitive) at first index
`i` and contains no dash-separator match, signature stripping cuts at that
newline and returns the trimmed prefix. -/
theorem c5_closing_phrase_strip (T : Str) (i : Nat)
    (hnd : findIdxWhere matchDashSepAt (trimJs T) = none)
    (hbr : findIdxWhere (matchesCI ('\n' :: ("Best regards,".data))) (trimJs T) =
      some i) :
    stripSignature T none = trimJs ((trimJs T).take i) := by
  have h1 : stripSigPhrasesGo (trimJs T) sigPhrases =
      some (trimJs ((trimJs T).take i)) := by
    rw [show sigPhrases = ("Best regards,".data) :: sigPhrases.tail from rfl]
    unfold stripSigPhrasesGo
    rw [hbr]
  show stripSigPhase2 (trimJs T) = trimJs ((trimJs T).take i)
  unfold stripSigPhase2
  rw [hnd, h1]

/-- C5 (witness): `T = "Hello\nBest regards,\nJohn"` cuts at index 5 and
returns `"Hello"`. -/
theorem c5_closing_phrase_strip_witness :
    findIdxWhere matchDashSepAt (trimJs ("Hello\nBest regards,\nJohn".data)) = none ∧
    findIdxWhere (matchesCI ('\n' :: ("Best regards,".data)))
      (trimJs ("Hello\nBest regards,\nJohn".data)) = some 5 ∧
    stripSignature ("Hello\nBest regards,\nJohn".data) none =
      trimJs ((trimJs ("Hello\nBest regards,\nJohn".data)).take 5) :=
  ⟨by decide, by decide, c5_closing_phrase_strip _ 5 (by decide) (by decide)⟩

/-- C6: for every session template and every document, the two fragments
returned by `extractPreservedContent` serialise disjoint node segments: the
signature nodes followed by the thread nodes form one contiguous suffix of
the root children, so no node is captured into both fragments (the thread
block and its following siblings are removed before the signature search). -/
theorem c6_disjoint_fragments (tmpl : Option Str) (roots : List Node) :
    ∃ sig thread : List Node,
      extractPreservedContent tmpl roots = (serializeList sig, serializeList thread) ∧
      sig ++ thread <:+ roots := by
  cases hT : threadIdxExtract roots with
  | none =>
    have hx : extractPreservedContent tmpl roots =
        (sigHtmlOf tmpl roots, serializeList ([] : List Node)) := by
      unfold extractPreservedContent
      rw [hT]
      rfl
    cases hS : sigIdx tmpl roots with
    | none =>
      have hy : sigHtmlOf tmpl roots = serializeList ([] : List Node) := by
        unfold sigHtmlOf
        rw [hS]
        rfl
      exact ⟨[], [], by rw [hx, hy], by simp⟩
    | some j =>
      have hy : sigHtmlOf tmpl roots = serializeList (roots.drop j) := by
        unfold sigHtmlOf
        rw [hS]
      exact ⟨roots.drop j, [], by rw [hx, hy], by simp [List.drop_suffix]⟩
  | some i =>
    have hx : extractPreservedContent tmpl roots =
        (sigHtmlOf tmpl (roots.take i), serializeList (roots.drop i)) := by
      unfold extractPreservedContent
      rw [hT]
    cases hS : sigIdx tmpl (roots.take i) with
    | none =>
      have hy : sigHtmlOf tmpl (roots.take i) = serializeList ([] : List Node) := by
        unfold sigHtmlOf
        rw [hS]
        rfl
      exact ⟨[], roots.drop i, by rw [hx, hy], by simp [List.drop_suffix]⟩
    | some j =>
      have hy : sigHtmlOf tmpl (roots.take i) =
          serializeList ((roots.take i).drop j) := by
        unfold sigHtmlOf
        rw [hS]
      refine ⟨(roots.take i).drop j, roots.drop i, by rw [hx, hy], ?_⟩
      by_cases hj : j ≤ (roots.take i).length
      · have key : (roots.take i).drop j ++ roots.drop i = roots.drop j := by
          conv_rhs => rw [← List.take_append_drop i roots]
          rw [List.drop_append_eq_append_drop, Nat.sub_eq_zero_of_le hj,
            List.drop_zero]
        rw [key]
        exact List.drop_suffix j roots
      · push_neg at hj
        rw [List.drop_eq_nil_of_le (le_of_lt hj), List.nil_append]
        exact List.drop_suffix i roots

/-- Any capture step leaves an already-set template untouched. -/
theorem captureEmailBody_foldl_template (t : Str) :
    ∀ (caps : List (List Node × Bool)) (st : SessionState),
    st.initialBodyTemplate = some t →
    (caps.foldl (fun s c => captureEmailBody s c.1 c.2) st).initialBodyTemplate =
      some t
  | [], _, h => h
  | _ :: cs, st, h =>
    captureEmailBody_foldl_template t cs _ (by simp [captureEmailBody, h])

/-- C7: the session signature template is captured exactly once — a capture
on a fresh session sets it to the trimmed parsed current message, and once it
is `some t` no sequence of later capture steps ever changes it (later steps
only consume it as the `stripSignature` template). -/
theorem c7_template_once (st : SessionState) :
    (∀ roots b, st.initialBodyTemplate = none →
      (captureEmailBody st roots b).initialBodyTemplate =
        some (trimJs (parseEmailHtml roots).currentMessage)) ∧
    (∀ t, st.initialBodyTemplate = some t →
      ∀ caps : List (List Node × Bool),
        (caps.foldl (fun s c => captureEmailBody s c.1 c.2) st).initialBodyTemplate =
          some t) := by
  constructor
  · intro roots b h
    simp [captureEmailBody, h]
  · intro t h caps
    exact captureEmailBody_foldl_template t caps st h

/-- C7 (witness): a session whose template is `"Sig"` keeps it through a
subsequent capture of a fresh document. -/
theorem c7_template_once_witness :
    (([([Node.text ("Hi".data)], false)] : List (List Node × Bool)).foldl
      (fun s c => captureEmailBody s c.1 c.2)
      ⟨some ("Sig".data), [], []⟩).initialBodyTemplate = some ("Sig".data) :=
  (c7_template_once ⟨some ("Sig".data), [], []⟩).2 ("Sig".data) rfl _

/-- C8 (counterexample): `formatBodyForInsert` is not idempotent on all of
its own output: the markdown body `"Hello\n\nWorld"` returns through the
early `result + '</p>'` path, which skips the style injection, so a second
application injects styles and changes the string. -/
theorem c8_counterexample :
    formatBodyForInsert (formatBodyForInsert ("Hello\n\nWorld".data)) ≠
      formatBodyForInsert ("Hello\n\nWorld".data) := by
  decide

/-- C8 (amended): on every body that already contains an HTML tag,
`formatBodyForInsert` is idempotent — the second application takes the
already-HTML path and re-running the inline style injection on already
styled output does not duplicate the injected styles. -/
theorem c8_idempotent_on_html (b : Str) (h : hasHtmlTag b = true) :
    formatBodyForInsert (formatBodyForInsert b) = formatBodyForInsert b := by
  have hne : b.isEmpty = false := by
    cases b with
    | nil => simp [hasHtmlTag] at h
    | cons c cs => rfl
  have h1 : formatBodyForInsert b = addOutlookStyles b := by
    unfold formatBodyForInsert
    rw [if_pos h]
  have h2 : hasHtmlTag (addOutlookStyles b) = true := by
    have hsty : addOutlookStyles b =
        replaceCI olTagPat olTagRepl
          (replaceCI ulTagPat ulTagRepl (replaceCI pTagPat pTagRepl b)) := by
      unfold addOutlookStyles
      rw [if_neg (by simp [hne])]
    rw [hsty]
    refine hasHtmlTag_replaceCI _ _ _ (by decide) (by decide) ?_
    refine hasHtmlTag_replaceCI _ _ _ (by decide) (by decide) ?_
    exact hasHtmlTag_replaceCI _ _ _ (by decide) (by decide) h
  rw [h1]
  unfold formatBodyForInsert
  rw [if_pos h2]
  exact addOutlookStyles_idem b

/-- C8 (witness): idempotence at the already-HTML body `<p>Hi</p>`. -/
theorem c8_idempotent_on_html_witness :
    hasHtmlTag ("<p>Hi</p>".data) = true ∧
    formatBodyForInsert (formatBodyForInsert ("<p>Hi</p>".data)) =
      formatBodyForInsert ("<p>Hi</p>".data) :=
  ⟨by decide, c8_idempotent_on_html _ (by decide)⟩

/-- C9 (counterexample): a response that *is* parseable JSON but misses the
expected fields is not degraded to `{subject: "", body: raw}`: for the raw
response `"{}"` the parse succeeds with an empty object and both field
accesses are `undefined`, not the raw text. -/
theorem c9_counterexample :
    jsonParse ("\x7b\x7d".data) = some (Js.jobj []) ∧
    jsField (handleProcessParse ("\x7b\x7d".data)) ("body".data) = none ∧
    jsField (handleProcessParse ("\x7b\x7d".data)) ("subject".data) = none :=
  ⟨rfl, rfl, rfl⟩

/-- C9 (amended): the caller never throws on a malformed completion — when
the response is not parseable JSON it degrades locally to an empty subject
with the entire raw text as body, and when the response parses, the parsed
value is used as-is (missing fields stay absent rather than being filled
with the raw text). -/
theorem c9_degrade_on_parse_failure (raw : Str) :
    (jsonParse raw = none →
      handleProcessParse raw =
        Js.jobj [(("subject".data), Js.jstr []), (("body".data), Js.jstr raw)]) ∧
    (∀ v, jsonParse raw = some v → handleProcessParse raw = v) := by
  constructor
  · intro h
    unfold handleProcessParse
    rw [h]
  · intro v h
    unfold handleProcessParse
    rw [h]

/-- C9 (witness): the raw response `Sorry, I can't help` is not JSON and
degrades to `{subject: "", body: "Sorry, I can't help"}`. -/
theorem c9_degrade_on_parse_failure_witness :
    jsonParse ("Sorry, I can\x27t help".data) = none ∧
    handleProcessParse ("Sorry, I can\x27t help".data) =
      Js.jobj [(("subject".data), Js.jstr []),
        (("body".data), Js.jstr ("Sorry, I can\x27t help".data))] :=
  ⟨rfl, (c9_degrade_on_parse_failure _).1 rfl⟩

theorem pmUpdateList_absent (i n ins : Str) : ∀ (l : List Prompt),
    (∀ p ∈ l, p.id ≠ i) → pmUpdateList i n ins l = none := by
  intro l
  induction l with
  | nil => intro _; rfl
  | cons p ps ih =>
    intro h
    unfold pmUpdateList
    rw [if_neg (by simp only [beq_iff_eq]; exact h p (List.mem_cons_self p ps)),
      ih (fun q hq => h q (by simp [hq]))]
    rfl

theorem pmUpdateList_found (i n ins : Str) (p : Prompt) (post : List Prompt)
    (hid : p.id = i) : ∀ (pre : List Prompt), (∀ q ∈ pre, q.id ≠ i) →
    pmUpdateList i n ins (pre ++ p :: post) =
      some (pre ++ { p with name := trimJs n, instruction := trimJs ins } :: post) := by
  intro pre
  induction pre with
  | nil =>
    intro _
    simp only [List.nil_append]
    unfold pmUpdateList
    rw [if_pos (by simp [hid])]
  | cons q pre' ih =>
    intro h
    rw [List.cons_append]
    unfold pmUpdateList
    rw [if_neg (by simp only [beq_iff_eq]; exact h q (List.mem_cons_self q pre')),
      ih (fun r hr => h r (by simp [hr]))]
    rfl

/-- C10: updating or deleting an absent prompt id returns `false` and leaves
the stored list unchanged (no storage write); updating a present id rewrites
exactly that prompt's name and instruction (both trimmed), preserves its id,
and leaves every other prompt unchanged. -/
theorem c10_prompt_update_delete (prompts : List Prompt) (i n ins : Str) :
    ((∀ p ∈ prompts, p.id ≠ i) →
      promptUpdate prompts i n ins = (false, prompts) ∧
      promptDelete prompts i = (false, prompts)) ∧
    (∀ pre p post, prompts = pre ++ p :: post → (∀ q ∈ pre, q.id ≠ i) →
      p.id = i →
      promptUpdate prompts i n ins =
        (true, pre ++ { p with name := trimJs n, instruction := trimJs ins } :: post)) := by
  constructor
  · intro h
    constructor
    · unfold promptUpdate
      rw [pmUpdateList_absent i n ins prompts h]
    · unfold promptDelete
      have hf : prompts.filter (fun p => p.id != i) = prompts :=
        List.filter_eq_self.mpr (fun p hp => by simpa using h p hp)
      simp [hf]
  · intro pre p post hpre hq hid
    subst hpre
    unfold promptUpdate
    rw [pmUpdateList_found i n ins p post hid pre hq]

/-- C10 (witness): updating id `"b"` in a two-prompt store trims and rewrites
only the second prompt. -/
theorem c10_prompt_update_delete_witness :
    promptUpdate
      [⟨("a".data), ("n0".data), ("i0".data)⟩, ⟨("b".data), ("n1".data), ("i1".data)⟩]
      ("b".data) (" New ".data) (" Inst ".data) =
    (true, [⟨("a".data), ("n0".data), ("i0".data)⟩,
            ⟨("b".data), ("New".data), ("Inst".data)⟩]) := by
  have h := (c10_prompt_update_delete
      [⟨("a".data), ("n0".data), ("i0".data)⟩, ⟨("b".data), ("n1".data), ("i1".data)⟩]
      ("b".data) (" New ".data) (" Inst ".data)).2
      [⟨("a".data), ("n0".data), ("i0".data)⟩] ⟨("b".data), ("n1".data), ("i1".data)⟩ []
      rfl (by decide) rfl
  rw [h]
  decide

end LlmToOutlook
